import Mathlib

/-!
Verification of the word-pool / round-session / reveal-sequencer core of
`src/app.py` (class `WerewolfGameApp`).

Strings are modelled as `List Char`; Python `str.strip()` (default,
whitespace) becomes `strip`, `str.split(",")` becomes `splitComma`, and
`",".join(pair)` becomes `canonical`.  Files are modelled at the line
level: a backing store is its list of lines (`read_text().splitlines()`).
Randomness (`random.choice`, `random.randrange`) is modelled by explicit
numeric parameters reduced modulo the relevant length, so every valid
random outcome is reachable and theorems quantify over all of them.
-/

namespace Werewolf

/-- A Python string, modelled as its list of characters. -/
abbrev Str := List Char

/-- A word pair, as produced by `load_words` (src/app.py line 87). -/
abbrev WordPair := Str × Str

/-- Whitespace test used by Python `str.strip()` (default argument). -/
def isWs (c : Char) : Bool := c.isWhitespace

/-- Python `s.strip()`: drop whitespace from both ends. -/
def strip (l : Str) : Str :=
  ((l.dropWhile isWs).reverse.dropWhile isWs).reverse

/-- Python `line.split(",")` (src/app.py line 84): split on every comma,
keeping empty segments. -/
def splitComma : Str → List Str
  | [] => [[]]
  | c :: rest =>
    if c = ',' then [] :: splitComma rest
    else
      match splitComma rest with
      | [] => [[c]]
      | h :: t => (c :: h) :: t

/-- The canonical line for a pair: `",".join(pair)` (src/app.py line 159). -/
def canonical (p : WordPair) : Str := p.1 ++ ',' :: p.2

/-- Body of the per-line parsing of `load_words` (src/app.py lines 81-87),
applied to an already-stripped line: skip empty lines and `#` comments,
split on commas, strip each field, drop empty fields, and accept the line
exactly when two fields remain. -/
def parseStripped (line : Str) : Option WordPair :=
  if line = [] then none
  else if line.head? = some '#' then none
  else
    match ((splitComma line).map strip).filter (fun s => !s.isEmpty) with
    | [a, b] => some (a, b)
    | _ => none

/-- One iteration of the `load_words` loop (src/app.py lines 80-87):
strip the raw line, then parse it. -/
def parseLine (raw : Str) : Option WordPair := parseStripped (strip raw)

/-- Load errors of `load_words` (src/app.py lines 75-77 and 89-91); both
end the process via `sys.exit(1)`. -/
inductive LoadErr
  | missingSource
  | emptyPool
deriving DecidableEq

/-- `load_words` (src/app.py lines 74-92).  The source argument is `none`
when the backing file does not exist, otherwise the file's lines. -/
def load_words (src : Option (List Str)) : Except LoadErr (List WordPair) :=
  match src with
  | none => .error .missingSource
  | some lines =>
    let pairs := lines.filterMap parseLine
    if pairs.isEmpty then .error .emptyPool else .ok pairs

/-- The pairs parsed from a store's lines (the in-memory pool that
`load_words` would produce from those lines). -/
def pairsOf (lines : List Str) : List WordPair := lines.filterMap parseLine

/-- The line-removal loop of `mark_word_used` (src/app.py lines 164-170):
drop the first line whose stripped form equals the target, keep the rest. -/
def removeFirstLine (target : Str) : List Str → List Str
  | [] => []
  | raw :: rest =>
    if strip raw = target then rest else raw :: removeFirstLine target rest

/-- The reveal sub-phase (`self.player_phase`, src/app.py line 24). -/
inductive Phase
  | intro
  | word
deriving DecidableEq

/-- The mutable application state of `WerewolfGameApp` that the core logic
touches (src/app.py lines 18-24 plus the two backing stores). -/
structure AppState where
  words : List WordPair
  activeLines : List Str
  usedLines : List Str
  playerCount : Option Nat
  currentPlayerIndex : Nat
  undercoverIndex : Nat
  playerWords : List Str
  currentPair : Option WordPair
  playerPhase : Phase
deriving DecidableEq

/-- `mark_word_used` (src/app.py lines 158-177): remove the first stored
line matching the pair's canonical form (a missing file reads as no
lines), append the canonical form to the used store, and remove one
occurrence of the pair from the in-memory pool, ignoring absence
(`try: ... except ValueError: pass`). -/
def mark_word_used (p : WordPair) (st : AppState) : AppState :=
  { st with
    activeLines := removeFirstLine (canonical p) st.activeLines
    usedLines := st.usedLines ++ [canonical p]
    words := st.words.erase p }

/-- Outcome of a `start_round` call (src/app.py lines 139-144): the silent
return when no player count is set, the pool-exhausted info dialog, or a
started round. -/
inductive StartOutcome
  | ok
  | poolExhausted
  | noCount
deriving DecidableEq

/-- `random.choice(self.words)` (src/app.py line 147): the pool entry at a
random valid index, the randomness supplied as `c`. -/
def draw (c : Nat) (st : AppState) : WordPair :=
  st.words.getD (c % st.words.length) ([], [])

/-- `start_round` (src/app.py lines 139-156).  `c` feeds
`random.choice(self.words)`, `sw` is `random.choice((True, False))`, and
`u` feeds `random.randrange(self.player_count)`. -/
def start_round (c : Nat) (sw : Bool) (u : Nat) (st : AppState) :
    StartOutcome × AppState :=
  match st.playerCount with
  | none => (.noCount, st)
  | some n =>
    if n = 0 then (.noCount, st)
    else if st.words.isEmpty then (.poolExhausted, st)
    else
      let sel := draw c st
      let st1 := mark_word_used sel
        { st with currentPlayerIndex := 0, playerPhase := .intro }
      let mm := if sw then (sel.2, sel.1) else (sel.1, sel.2)
      let ui := u % n
      (.ok,
        { st1 with
          currentPair := some mm
          undercoverIndex := ui
          playerWords := (List.replicate n mm.1).set ui mm.2 })

/-- One reveal-sequencer step: `handle_intro_next` (src/app.py lines
219-221) from an intro screen, `handle_word_next` (lines 256-259) from a
word screen. -/
def proceed : Nat × Phase → Nat × Phase
  | (i, .intro) => (i, .word)
  | (i, .word) => (i + 1, .intro)

/-- `show_player_screen` (src/app.py lines 182-183) shows the reveal
summary exactly when the player index has reached the player count. -/
def isReveal (n : Nat) (s : Nat × Phase) : Prop := n ≤ s.1

instance (n : Nat) (s : Nat × Phase) : Decidable (isReveal n s) :=
  inferInstanceAs (Decidable (n ≤ s.1))

/-- A stored line is canonical when, if it parses to a pair, its stripped
form is exactly that pair's canonical line. -/
def lineCanonical (raw : Str) : Bool :=
  match parseLine raw with
  | some p => decide (strip raw = canonical p)
  | none => true

/-- Every line of the store is canonical. -/
def canonicalStore (lines : List Str) : Bool := lines.all lineCanonical

/-- Apply a sequence of `mark_word_used` calls in order. -/
def applyConsumes (ps : List WordPair) (st : AppState) : AppState :=
  ps.foldl (fun s q => mark_word_used q s) st

/-- The consumed pairs are taken from the in-memory pool current at each
step, as `start_round` takes them. -/
def validSeq : List WordPair → AppState → Bool
  | [], _ => true
  | q :: qs, st => st.words.contains q && validSeq qs (mark_word_used q st)

/-- The pool-touching operations a running process can perform. -/
inductive Op
  | consume (p : WordPair)
  | start (c : Nat) (sw : Bool) (u : Nat)

/-- Apply one operation to the application state. -/
def applyOp (st : AppState) : Op → AppState
  | .consume q => mark_word_used q st
  | .start c sw u => (start_round c sw u st).2

/-- Apply a list of operations in order. -/
def applyOps (st : AppState) (ops : List Op) : AppState := ops.foldl applyOp st

/-! ### Concrete states used to instantiate the theorems -/

/-- A loaded state whose only pair has two equal words (file line `a,a`). -/
def stateC1 : AppState :=
  { words := [(['a'], ['a'])], activeLines := [['a', ',', 'a']],
    usedLines := [], playerCount := some 2, currentPlayerIndex := 0,
    undercoverIndex := 0, playerWords := [], currentPair := none,
    playerPhase := Phase.intro }

/-- A loaded state with one pair of two distinct words. -/
def stateC1w : AppState :=
  { words := [(['x'], ['y'])], activeLines := [['x', ',', 'y']],
    usedLines := [], playerCount := some 3, currentPlayerIndex := 0,
    undercoverIndex := 0, playerWords := [], currentPair := none,
    playerPhase := Phase.intro }

/-- A loaded state holding two copies of the same pair (file `a,b` twice). -/
def stateC2 : AppState :=
  { words := [(['a'], ['b']), (['a'], ['b'])],
    activeLines := [['a', ',', 'b'], ['a', ',', 'b']],
    usedLines := [], playerCount := some 2, currentPlayerIndex := 0,
    undercoverIndex := 0, playerWords := [], currentPair := none,
    playerPhase := Phase.intro }

/-- A loaded state holding a single copy of its pair. -/
def stateC2w : AppState :=
  { words := [(['a'], ['b'])], activeLines := [['a', ',', 'b']],
    usedLines := [], playerCount := some 2, currentPlayerIndex := 0,
    undercoverIndex := 0, playerWords := [], currentPair := none,
    playerPhase := Phase.intro }

/-- A loaded state whose stored line `a , b` has inner whitespace, so it is
accepted by the loader but is not in canonical form. -/
def stateC3 : AppState :=
  { words := [(['a'], ['b'])], activeLines := [['a', ' ', ',', ' ', 'b']],
    usedLines := [], playerCount := some 2, currentPlayerIndex := 0,
    undercoverIndex := 0, playerWords := [], currentPair := none,
    playerPhase := Phase.intro }

/-- A loaded state whose single stored line is canonical. -/
def stateC3w : AppState :=
  { words := [(['x'], ['y'])], activeLines := [['x', ',', 'y']],
    usedLines := [], playerCount := some 2, currentPlayerIndex := 0,
    undercoverIndex := 0, playerWords := [], currentPair := none,
    playerPhase := Phase.intro }

/-- An exhausted-pool state in the middle of a finished round. -/
def stateC7w : AppState :=
  { words := [], activeLines := [], usedLines := [['x', ',', 'y']],
    playerCount := some 2, currentPlayerIndex := 2,
    undercoverIndex := 1, playerWords := [['x'], ['y']],
    currentPair := some (['x'], ['y']), playerPhase := Phase.intro }

/-- A state whose pool holds a pair that no stored line matches. -/
def stateC9w : AppState :=
  { words := [(['a'], ['b'])], activeLines := [['x', ',', 'y']],
    usedLines := [], playerCount := some 2, currentPlayerIndex := 0,
    undercoverIndex := 0, playerWords := [], currentPair := none,
    playerPhase := Phase.intro }

/-! ### Basic facts about `strip` -/

theorem mem_strip {a : Char} {l : Str} (h : a ∈ strip l) : a ∈ l := by
  unfold strip at h
  rw [List.mem_reverse] at h
  have h2 := (List.dropWhile_sublist isWs).subset h
  rw [List.mem_reverse] at h2
  exact (List.dropWhile_sublist isWs).subset h2

theorem head_dropWhile_isWs {l : Str} {a : Char}
    (h : (l.dropWhile isWs).head? = some a) : isWs a = false := by
  have := List.head?_dropWhile_not isWs l
  rw [h] at this
  exact this

theorem strip_head_not_ws {l : Str} {a : Char}
    (h : (strip l).head? = some a) : isWs a = false := by
  unfold strip at h
  rw [List.head?_reverse] at h
  obtain ⟨t, ht⟩ := List.dropWhile_suffix (l := (l.dropWhile isWs).reverse) isWs
  have hA : ((l.dropWhile isWs).reverse).getLast? = some a := by
    rw [← ht, List.getLast?_append, h]
    rfl
  rw [List.getLast?_reverse] at hA
  exact head_dropWhile_isWs hA

theorem strip_getLast_not_ws {l : Str} {a : Char}
    (h : (strip l).getLast? = some a) : isWs a = false := by
  unfold strip at h
  rw [List.getLast?_reverse] at h
  exact head_dropWhile_isWs h

theorem dropWhile_eq_self_of_head {l : Str}
    (h : ∀ a, l.head? = some a → isWs a = false) :
    l.dropWhile isWs = l := by
  cases l with
  | nil => rfl
  | cons a rest =>
    have := h a rfl
    simp [List.dropWhile_cons, this]

theorem strip_eq_self_of {l : Str}
    (h1 : ∀ a, l.head? = some a → isWs a = false)
    (h2 : ∀ a, l.getLast? = some a → isWs a = false) :
    strip l = l := by
  unfold strip
  rw [dropWhile_eq_self_of_head h1]
  have : l.reverse.dropWhile isWs = l.reverse := by
    apply dropWhile_eq_self_of_head
    intro a ha
    rw [List.head?_reverse] at ha
    exact h2 a ha
  rw [this, List.reverse_reverse]

theorem strip_idem (l : Str) : strip (strip l) = strip l :=
  strip_eq_self_of (fun _ h => strip_head_not_ws h)
    (fun _ h => strip_getLast_not_ws h)

theorem strip_canonical {p : WordPair}
    (h1 : strip p.1 = p.1) (hn1 : p.1 ≠ [])
    (h2 : strip p.2 = p.2) (hn2 : p.2 ≠ []) :
    strip (canonical p) = canonical p := by
  apply strip_eq_self_of
  · intro a ha
    unfold canonical at ha
    rw [List.head?_append] at ha
    cases hh : p.1.head? with
    | none => exact absurd (List.head?_eq_none_iff.mp hh) hn1
    | some b =>
      rw [hh] at ha
      simp only [Option.or_some, Option.some.injEq] at ha
      subst ha
      exact strip_head_not_ws (h1 ▸ hh)
  · intro a ha
    unfold canonical at ha
    rw [List.getLast?_append] at ha
    have hg : (',' :: p.2).getLast? = p.2.getLast?.getD ',' := List.getLast?_cons
    cases hh : p.2.getLast? with
    | none => exact absurd (List.getLast?_eq_none_iff.mp hh) hn2
    | some b =>
      rw [hg, hh] at ha
      simp only [Option.getD_some, Option.or_some, Option.some.injEq] at ha
      subst ha
      exact strip_getLast_not_ws (h2 ▸ hh)

/-! ### Basic facts about `splitComma` -/

theorem splitComma_ne_nil (l : Str) : splitComma l ≠ [] := by
  induction l with
  | nil => simp [splitComma]
  | cons c rest ih =>
    unfold splitComma
    by_cases hc : c = ','
    · simp [hc]
    · simp only [hc, if_false]
      cases h : splitComma rest with
      | nil => simp
      | cons a t => simp

theorem not_comma_mem_splitComma {l : Str} {x : Str}
    (hx : x ∈ splitComma l) : ',' ∉ x := by
  induction l generalizing x with
  | nil =>
    simp [splitComma] at hx
    simp [hx]
  | cons c rest ih =>
    unfold splitComma at hx
    by_cases hc : c = ','
    · simp only [hc, if_true] at hx
      rcases List.mem_cons.mp hx with h | h
      · simp [h]
      · exact ih h
    · simp only [hc, if_false] at hx
      cases h : splitComma rest with
      | nil => exact absurd h (splitComma_ne_nil rest)
      | cons a t =>
        rw [h] at hx
        rcases List.mem_cons.mp hx with h2 | h2
        · subst h2
          intro hmem
          rcases List.mem_cons.mp hmem with h3 | h3
          · exact hc h3.symm
          · exact ih (h ▸ List.mem_cons_self a t) h3
        · exact ih (h ▸ List.mem_cons.mpr (Or.inr h2))

theorem splitComma_no_comma {w : Str} (hw : ',' ∉ w) : splitComma w = [w] := by
  induction w with
  | nil => rfl
  | cons c rest ih =>
    have hc : c ≠ ',' := fun h => hw (h ▸ List.mem_cons_self c rest)
    have hr : ',' ∉ rest := fun h => hw (List.mem_cons.mpr (Or.inr h))
    unfold splitComma
    simp only [fun h => hc (h : c = ','), if_false]
    rw [ih hr]

theorem splitComma_append_comma {u : Str} (v : Str) (hu : ',' ∉ u) :
    splitComma (u ++ ',' :: v) = u :: splitComma v := by
  induction u with
  | nil => simp [splitComma]
  | cons c rest ih =>
    have hc : c ≠ ',' := fun h => hu (h ▸ List.mem_cons_self c rest)
    have hr : ',' ∉ rest := fun h => hu (List.mem_cons.mpr (Or.inr h))
    have step : splitComma (c :: (rest ++ ',' :: v)) =
        match splitComma (rest ++ ',' :: v) with
        | [] => [[c]]
        | h :: t => (c :: h) :: t := by
      simp [splitComma, hc]
    rw [List.cons_append, step, ih hr]

theorem count_comma_one {l : Str} (h : l.count ',' = 1) :
    ∃ u v, l = u ++ ',' :: v ∧ ',' ∉ u ∧ ',' ∉ v := by
  have hm : ',' ∈ l := by
    rw [← List.one_le_count_iff]
    omega
  obtain ⟨u, v, huv⟩ := List.append_of_mem hm
  refine ⟨u, v, huv, ?_, ?_⟩
  · rw [huv, List.count_append] at h
    simp only [List.count_cons_self] at h
    rw [← List.count_eq_zero (a := ',') (l := u)]
    omega
  · rw [huv, List.count_append] at h
    simp only [List.count_cons_self] at h
    rw [← List.count_eq_zero (a := ',') (l := v)]
    omega

/-! ### Fields produced by the line parser -/

theorem filter_field {line : Str} {a : Str}
    (ha : a ∈ ((splitComma line).map strip).filter (fun s => !s.isEmpty)) :
    strip a = a ∧ a ≠ [] ∧ ',' ∉ a := by
  rw [List.mem_filter] at ha
  obtain ⟨hmem, hne⟩ := ha
  rw [List.mem_map] at hmem
  obtain ⟨x, hx, hxa⟩ := hmem
  subst hxa
  refine ⟨strip_idem x, ?_, ?_⟩
  · intro h
    rw [h] at hne
    simp at hne
  · intro h
    exact not_comma_mem_splitComma hx (mem_strip h)

theorem parseStripped_fields {line : Str} {p : WordPair}
    (h : parseStripped line = some p) :
    strip p.1 = p.1 ∧ p.1 ≠ [] ∧ ',' ∉ p.1 ∧
    strip p.2 = p.2 ∧ p.2 ≠ [] ∧ ',' ∉ p.2 := by
  unfold parseStripped at h
  split at h
  · exact Option.noConfusion h
  · split at h
    · exact Option.noConfusion h
    · split at h
      next a b heq =>
        injection h with h
        subst h
        have hab : a ∈ ((splitComma line).map strip).filter (fun s => !s.isEmpty) ∧
            b ∈ ((splitComma line).map strip).filter (fun s => !s.isEmpty) := by
          rw [heq]
          exact ⟨List.mem_cons_self a [b], List.mem_cons.mpr (Or.inr (List.mem_cons_self b []))⟩
        obtain ⟨ha1, ha2, ha3⟩ := filter_field hab.1
        obtain ⟨hb1, hb2, hb3⟩ := filter_field hab.2
        exact ⟨ha1, ha2, ha3, hb1, hb2, hb3⟩
      next => exact Option.noConfusion h

/-- If the canonical line of `p` parses back to `p` when taken as already
stripped, then it also parses back to `p` as a raw stored line. -/
theorem parseLine_canonical_self {p : WordPair}
    (h : parseStripped (canonical p) = some p) :
    parseLine (canonical p) = some p := by
  obtain ⟨h1, hn1, _, h2, hn2, _⟩ := parseStripped_fields h
  unfold parseLine
  rw [strip_canonical h1 hn1 h2 hn2]
  exact h

/-! ### Canonically stored lines -/

theorem removeFirstLine_sublist (t : Str) (l : List Str) :
    List.Sublist (removeFirstLine t l) l := by
  induction l with
  | nil => simp [removeFirstLine]
  | cons raw rest ih =>
    unfold removeFirstLine
    split
    · exact List.sublist_cons_self raw rest
    · exact List.Sublist.cons₂ raw ih

theorem canonicalStore_removeFirstLine {t : Str} {l : List Str}
    (h : canonicalStore l = true) :
    canonicalStore (removeFirstLine t l) = true := by
  rw [canonicalStore, List.all_eq_true] at h ⊢
  intro x hx
  exact h x ((removeFirstLine_sublist t l).subset hx)

/-- A pair in the pool of a canonical store has a canonical line that
parses back to itself. -/
theorem parse_canonical_of_mem {p : WordPair} {lines : List Str}
    (hall : canonicalStore lines = true)
    (hmem : p ∈ pairsOf lines) :
    parseStripped (canonical p) = some p := by
  rw [pairsOf, List.mem_filterMap] at hmem
  obtain ⟨raw, hraw, hpr⟩ := hmem
  rw [canonicalStore, List.all_eq_true] at hall
  have hcl := hall raw hraw
  unfold lineCanonical at hcl
  rw [hpr] at hcl
  have hsr : strip raw = canonical p := of_decide_eq_true hcl
  rw [parseLine] at hpr
  rw [← hsr]
  exact hpr

/-- Removing the first line matching `canonical p` from a canonical store
removes exactly the first occurrence of `p` from the parsed pool. -/
theorem pairsOf_removeFirstLine {p : WordPair} {lines : List Str}
    (hall : canonicalStore lines = true)
    (hps : parseStripped (canonical p) = some p)
    (hmem : p ∈ pairsOf lines) :
    pairsOf (removeFirstLine (canonical p) lines) = (pairsOf lines).erase p := by
  induction lines with
  | nil => simp [pairsOf] at hmem
  | cons raw rest ih =>
    have hcanon : lineCanonical raw = true ∧ canonicalStore rest = true := by
      rw [canonicalStore, List.all_cons, Bool.and_eq_true] at hall
      exact hall
    by_cases hsr : strip raw = canonical p
    · have hpr : parseLine raw = some p := by
        rw [parseLine, hsr]
        exact hps
      unfold removeFirstLine
      rw [if_pos hsr]
      have hstep : pairsOf (raw :: rest) = p :: pairsOf rest := by
        simp [pairsOf, List.filterMap_cons, hpr]
      rw [hstep, List.erase_cons_head]
    · unfold removeFirstLine
      rw [if_neg hsr]
      cases hpr : parseLine raw with
      | none =>
        have h1 : pairsOf (raw :: rest) = pairsOf rest := by
          simp [pairsOf, List.filterMap_cons, hpr]
        have h2 : pairsOf (raw :: removeFirstLine (canonical p) rest) =
            pairsOf (removeFirstLine (canonical p) rest) := by
          simp [pairsOf, List.filterMap_cons, hpr]
        rw [h1] at hmem ⊢
        rw [h2, ih hcanon.2 hmem]
      | some q =>
        have hq : strip raw = canonical q := by
          have hcl := hcanon.1
          unfold lineCanonical at hcl
          rw [hpr] at hcl
          exact of_decide_eq_true hcl
        have hqp : q ≠ p := fun h => hsr (h ▸ hq)
        have h1 : pairsOf (raw :: rest) = q :: pairsOf rest := by
          simp [pairsOf, List.filterMap_cons, hpr]
        have h2 : pairsOf (raw :: removeFirstLine (canonical p) rest) =
            q :: pairsOf (removeFirstLine (canonical p) rest) := by
          simp [pairsOf, List.filterMap_cons, hpr]
        rw [h1] at hmem
        have hpm : p ∈ pairsOf rest := by
          rcases List.mem_cons.mp hmem with h | h
          · exact absurd h.symm hqp
          · exact h
        rw [h1, h2, ih hcanon.2 hpm, List.erase_cons_tail (by simp [hqp])]

theorem pairsOf_append_canonical {p : WordPair} (used : List Str)
    (h : parseLine (canonical p) = some p) :
    pairsOf (used ++ [canonical p]) = pairsOf used ++ [p] := by
  simp [pairsOf, List.filterMap_append, List.filterMap_cons, h]

/-! ### Sequences of pool operations -/

theorem words_start_round (c : Nat) (sw : Bool) (u : Nat) (st : AppState) :
    ((start_round c sw u st).2).words = st.words ∨
    ((start_round c sw u st).2).words = st.words.erase (draw c st) := by
  cases h : st.playerCount with
  | none => simp [start_round, h]
  | some n =>
    by_cases hn : n = 0
    · simp [start_round, h, hn]
    · by_cases hw : st.words.isEmpty
      · simp [start_round, h, hn, hw]
      · right
        simp [start_round, h, hn, hw, mark_word_used]

theorem not_mem_words_applyOp {p : WordPair} {st : AppState}
    (h : p ∉ st.words) (op : Op) : p ∉ (applyOp st op).words := by
  cases op with
  | consume q =>
    intro hmem
    exact h (List.mem_of_mem_erase hmem)
  | start c sw u =>
    show p ∉ ((start_round c sw u st).2).words
    rcases words_start_round c sw u st with hw | hw <;> rw [hw]
    · exact h
    · intro hmem
      exact h (List.mem_of_mem_erase hmem)

theorem not_mem_words_applyOps {p : WordPair} {st : AppState}
    (h : p ∉ st.words) (ops : List Op) : p ∉ (applyOps st ops).words := by
  induction ops generalizing st with
  | nil => exact h
  | cons op rest ih => exact ih (not_mem_words_applyOp h op)

theorem draw_mem {c : Nat} {st : AppState} (h : st.words ≠ []) :
    draw c st ∈ st.words := by
  unfold draw
  have hlen : c % st.words.length < st.words.length :=
    Nat.mod_lt _ (List.length_pos.mpr h)
  rw [List.getD_eq_getElem?_getD, List.getElem?_eq_getElem hlen]
  exact List.getElem_mem hlen

/-! ### Replicate-and-set lists -/

theorem replicate_set {α : Type} (a b : α) :
    ∀ i n, i < n → (List.replicate n a).set i b =
      List.replicate i a ++ b :: List.replicate (n - i - 1) a := by
  intro i
  induction i with
  | zero =>
    intro n h
    cases n with
    | zero => omega
    | succ m => simp [List.replicate_succ]
  | succ i ih =>
    intro n h
    cases n with
    | zero => omega
    | succ m =>
      have hi : i < m := by omega
      rw [List.replicate_succ, List.set_cons_succ, ih m hi]
      simp [List.replicate_succ]

theorem filter_replicate_of {α : Type} (f : α → Bool) (a : α) (k : Nat) :
    (List.replicate k a).filter f =
      if f a then List.replicate k a else [] := by
  induction k with
  | zero => simp
  | succ m ih =>
    rw [List.replicate_succ, List.filter_cons]
    by_cases hf : f a
    · simp [hf, ih, List.replicate_succ]
    · simp only [Bool.not_eq_true] at hf
      simp [hf, ih]

/-! ### Further `strip` and `removeFirstLine` facts -/

theorem strip_of_no_ws {l : Str} (h : ∀ ch ∈ l, isWs ch = false) :
    strip l = l := by
  apply strip_eq_self_of
  · intro a ha
    cases l with
    | nil => exact Option.noConfusion ha
    | cons c rest =>
      rw [List.head?_cons, Option.some.injEq] at ha
      exact h a (ha ▸ List.mem_cons_self c rest)
  · intro a ha
    exact h a (List.mem_of_getLast?_eq_some ha)

theorem removeFirstLine_no_match {t : Str} {l : List Str}
    (h : ∀ raw ∈ l, strip raw ≠ t) : removeFirstLine t l = l := by
  induction l with
  | nil => rfl
  | cons raw rest ih =>
    unfold removeFirstLine
    rw [if_neg (h raw (List.mem_cons_self raw rest))]
    rw [ih fun x hx => h x (List.mem_cons.mpr (Or.inr hx))]

/-! ### The reveal-sequencer trajectory -/

theorem proceed_iterate (k : Nat) :
    proceed^[k] (0, Phase.intro) =
      (k / 2, if k % 2 = 0 then Phase.intro else Phase.word) := by
  induction k with
  | zero => rfl
  | succ m ih =>
    rw [Function.iterate_succ_apply', ih]
    by_cases hm : m % 2 = 0
    · rw [if_pos hm]
      show (m / 2, Phase.word) = _
      rw [if_neg (by omega)]
      have h2 : m / 2 = (m + 1) / 2 := by omega
      rw [h2]
    · rw [if_neg hm]
      show (m / 2 + 1, Phase.intro) = _
      rw [if_pos (by omega)]
      have h2 : m / 2 + 1 = (m + 1) / 2 := by omega
      rw [h2]

/-! ### Characterizing a successful round start -/

theorem start_round_ok (c : Nat) (sw : Bool) (u : Nat) (st : AppState)
    (n : Nat) (hn : st.playerCount = some n) (hn0 : n ≠ 0)
    (hw : st.words ≠ []) :
    start_round c sw u st =
      (StartOutcome.ok,
        { words := st.words.erase (draw c st)
          activeLines := removeFirstLine (canonical (draw c st)) st.activeLines
          usedLines := st.usedLines ++ [canonical (draw c st)]
          playerCount := st.playerCount
          currentPlayerIndex := 0
          undercoverIndex := u % n
          playerWords :=
            (List.replicate n (if sw then (draw c st).2 else (draw c st).1)).set
              (u % n) (if sw then (draw c st).1 else (draw c st).2)
          currentPair :=
            some (if sw then ((draw c st).2, (draw c st).1)
                  else ((draw c st).1, (draw c st).2))
          playerPhase := Phase.intro }) := by
  have hwE : ¬ st.words.isEmpty = true := by
    cases h : st.words with
    | nil => exact absurd h hw
    | cons a t => simp
  unfold start_round
  split
  next h =>
    rw [hn] at h
    exact Option.noConfusion h
  next m h =>
    rw [hn] at h
    injection h with h
    subst h
    rw [if_neg hn0, if_neg hwE]
    cases sw <;> rfl

/-! ### One consume step on a canonical store -/

theorem erase_deq (l : List WordPair) (a : WordPair) :
    l.erase a = @List.erase _ instBEqOfDecidableEq l a := by
  induction l with
  | nil => rfl
  | cons b t ih =>
    rw [List.erase_cons, @List.erase_cons _ instBEqOfDecidableEq a b t, ih]
    by_cases hba : b = a
    · rw [if_pos (by simp [hba]),
        if_pos ((@beq_iff_eq WordPair instBEqOfDecidableEq
          (@instLawfulBEq WordPair _) b a).mpr hba)]
    · rw [if_neg (by simp [hba]),
        if_neg (fun h => hba
          ((@beq_iff_eq WordPair instBEqOfDecidableEq
            (@instLawfulBEq WordPair _) b a).mp h))]

theorem mark_word_used_perm {p : WordPair} {st : AppState}
    (hcs : canonicalStore st.activeLines = true)
    (hperm : st.words.Perm (pairsOf st.activeLines))
    (hmem : p ∈ st.words) :
    canonicalStore (mark_word_used p st).activeLines = true ∧
    ((mark_word_used p st).words).Perm
      (pairsOf (mark_word_used p st).activeLines) ∧
    (pairsOf (mark_word_used p st).activeLines ++
      pairsOf (mark_word_used p st).usedLines).Perm
      (pairsOf st.activeLines ++ pairsOf st.usedLines) := by
  have hpm : p ∈ pairsOf st.activeLines := hperm.mem_iff.mp hmem
  have hps := parse_canonical_of_mem hcs hpm
  have hplc := parseLine_canonical_self hps
  have hrm := pairsOf_removeFirstLine hcs hps hpm
  refine ⟨canonicalStore_removeFirstLine hcs, ?_, ?_⟩
  · show (st.words.erase p).Perm
      (pairsOf (removeFirstLine (canonical p) st.activeLines))
    rw [hrm, erase_deq st.words p, erase_deq (pairsOf st.activeLines) p]
    exact hperm.erase p
  · show (pairsOf (removeFirstLine (canonical p) st.activeLines) ++
      pairsOf (st.usedLines ++ [canonical p])).Perm _
    rw [hrm, pairsOf_append_canonical _ hplc]
    have h1 : List.Perm
        (((pairsOf st.activeLines).erase p ++ pairsOf st.usedLines) ++ [p])
        (p :: ((pairsOf st.activeLines).erase p ++ pairsOf st.usedLines)) :=
      List.perm_append_singleton p _
    have h0 : List.Perm (pairsOf st.activeLines)
        (p :: (pairsOf st.activeLines).erase p) := by
      rw [erase_deq (pairsOf st.activeLines) p]
      exact List.perm_cons_erase hpm
    have h2 : List.Perm
        ((p :: (pairsOf st.activeLines).erase p) ++ pairsOf st.usedLines)
        (pairsOf st.activeLines ++ pairsOf st.usedLines) :=
      List.Perm.append_right _ h0.symm
    have h3 : (pairsOf st.activeLines).erase p ++ (pairsOf st.usedLines ++ [p])
        = ((pairsOf st.activeLines).erase p ++ pairsOf st.usedLines) ++ [p] :=
      (List.append_assoc _ _ _).symm
    rw [h3]
    exact (h1.trans h2)

theorem count_set_replicate {maj minr : Str} (hd : maj ≠ minr) (n i : Nat)
    (hi : i < n) :
    (((List.replicate n maj).set i minr).filter
      (fun w => decide (w = minr))).length = 1 ∧
    (((List.replicate n maj).set i minr).filter
      (fun w => decide (w = maj))).length = n - 1 := by
  rw [replicate_set maj minr i n hi]
  constructor
  · rw [List.filter_append, List.filter_cons,
      filter_replicate_of, filter_replicate_of]
    simp [hd]
  · rw [List.filter_append, List.filter_cons,
      filter_replicate_of, filter_replicate_of]
    have hd2 : minr ≠ maj := Ne.symm hd
    simp [hd2]
    omega

/-! ### Claim C1 -/

/-- Claim C1 (amended): for every loaded pool with at least one pair and
player count N ≥ 2, provided the drawn pair's two words are distinct,
starting a round produces playerWords of length N in which exactly one
index holds the minority word (N − 1 hold the majority word), and that
index is the undercover index.  (When the drawn pair's two words are
equal — e.g. a stored line `a,a`, which the loader accepts — every index
holds the same word and no index is distinguished, refuting the
unconditional claim.) -/
theorem claim_C1 (c : Nat) (sw : Bool) (u : Nat) (st : AppState) (n : Nat)
    (hn : st.playerCount = some n) (h2 : 2 ≤ n) (hw : st.words ≠ [])
    (hd : (draw c st).1 ≠ (draw c st).2) :
    ∃ maj minr,
      ((start_round c sw u st).2).currentPair = some (maj, minr) ∧
      ((maj, minr) = ((draw c st).1, (draw c st).2) ∨
        (maj, minr) = ((draw c st).2, (draw c st).1)) ∧
      ((start_round c sw u st).2).playerWords.length = n ∧
      ((start_round c sw u st).2).undercoverIndex < n ∧
      (((start_round c sw u st).2).playerWords[
        ((start_round c sw u st).2).undercoverIndex]? = some minr) ∧
      (∀ i, i < n → i ≠ ((start_round c sw u st).2).undercoverIndex →
        ((start_round c sw u st).2).playerWords[i]? = some maj) ∧
      (((start_round c sw u st).2).playerWords.filter
        (fun w => decide (w = minr))).length = 1 ∧
      (((start_round c sw u st).2).playerWords.filter
        (fun w => decide (w = maj))).length = n - 1 := by
  have hn0 : n ≠ 0 := by omega
  have hun : u % n < n := Nat.mod_lt u (by omega)
  have hok := congrArg Prod.snd (start_round_ok c sw u st n hn hn0 hw)
  cases sw with
  | false =>
    refine ⟨(draw c st).1, (draw c st).2, ?_, Or.inl rfl, ?_, ?_, ?_, ?_, ?_, ?_⟩
    · rw [hok]
      rfl
    · rw [hok]
      show ((List.replicate n (draw c st).1).set (u % n) (draw c st).2).length = n
      simp
    · rw [hok]
      exact hun
    · rw [hok]
      show ((List.replicate n (draw c st).1).set (u % n) (draw c st).2)[u % n]?
        = some (draw c st).2
      exact List.getElem?_set_self (by simpa using hun)
    · rw [hok]
      intro i hi hne
      show ((List.replicate n (draw c st).1).set (u % n) (draw c st).2)[i]?
        = some (draw c st).1
      rw [List.getElem?_set_ne (fun hh => hne hh.symm)]
      exact List.getElem?_replicate_of_lt hi
    · rw [hok]
      exact (count_set_replicate hd n (u % n) hun).1
    · rw [hok]
      exact (count_set_replicate hd n (u % n) hun).2
  | true =>
    refine ⟨(draw c st).2, (draw c st).1, ?_, Or.inr rfl, ?_, ?_, ?_, ?_, ?_, ?_⟩
    · rw [hok]
      rfl
    · rw [hok]
      show ((List.replicate n (draw c st).2).set (u % n) (draw c st).1).length = n
      simp
    · rw [hok]
      exact hun
    · rw [hok]
      show ((List.replicate n (draw c st).2).set (u % n) (draw c st).1)[u % n]?
        = some (draw c st).1
      exact List.getElem?_set_self (by simpa using hun)
    · rw [hok]
      intro i hi hne
      show ((List.replicate n (draw c st).2).set (u % n) (draw c st).1)[i]?
        = some (draw c st).2
      rw [List.getElem?_set_ne (fun hh => hne hh.symm)]
      exact List.getElem?_replicate_of_lt hi
    · rw [hok]
      exact (count_set_replicate (Ne.symm hd) n (u % n) hun).1
    · rw [hok]
      exact (count_set_replicate (Ne.symm hd) n (u % n) hun).2

/-- Claim C1 as stated is false on a loaded pool whose pair has two equal
words: the round starts, the minority word is `a`, and the number of
player-word entries equal to the minority word is 2, not 1. -/
theorem claim_C1_counterexample :
    (start_round 0 false 0 stateC1).1 = StartOutcome.ok ∧
    ((start_round 0 false 0 stateC1).2).currentPair = some (['a'], ['a']) ∧
    ¬((((start_round 0 false 0 stateC1).2).playerWords.filter
        (fun w => decide (w = ['a']))).length = 1) := by
  decide

theorem claim_C1_witness :
    ∃ maj minr,
      ((start_round 0 false 0 stateC1w).2).currentPair = some (maj, minr) ∧
      ((maj, minr) = ((draw 0 stateC1w).1, (draw 0 stateC1w).2) ∨
        (maj, minr) = ((draw 0 stateC1w).2, (draw 0 stateC1w).1)) ∧
      ((start_round 0 false 0 stateC1w).2).playerWords.length = 3 ∧
      ((start_round 0 false 0 stateC1w).2).undercoverIndex < 3 ∧
      (((start_round 0 false 0 stateC1w).2).playerWords[
        ((start_round 0 false 0 stateC1w).2).undercoverIndex]? = some minr) ∧
      (∀ i, i < 3 → i ≠ ((start_round 0 false 0 stateC1w).2).undercoverIndex →
        ((start_round 0 false 0 stateC1w).2).playerWords[i]? = some maj) ∧
      (((start_round 0 false 0 stateC1w).2).playerWords.filter
        (fun w => decide (w = minr))).length = 1 ∧
      (((start_round 0 false 0 stateC1w).2).playerWords.filter
        (fun w => decide (w = maj))).length = 3 - 1 :=
  claim_C1 0 false 0 stateC1w 3 rfl (by decide) (by decide) (by decide)

/-! ### Claim C2 -/

/-- Claim C2 (amended): consuming a pair removes one occurrence from the
in-memory pool.  If the pool held at most one copy of the pair, then after
the consume no sequence of further operations (consumes or round starts)
can make a draw return that pair again; but when the pool held duplicate
copies, the pair is still present after the consume and remains
drawable — refuting the claim's "even when the pool initially contained
duplicate copies" clause. -/
theorem claim_C2 (p : WordPair) (st : AppState) (ops : List Op) :
    (st.words.count p ≤ 1 →
      p ∉ (applyOps (mark_word_used p st) ops).words ∧
      ∀ c, (applyOps (mark_word_used p st) ops).words ≠ [] →
        draw c (applyOps (mark_word_used p st) ops) ≠ p) ∧
    (2 ≤ st.words.count p → p ∈ (mark_word_used p st).words) := by
  constructor
  · intro hc
    have h0 : p ∉ (mark_word_used p st).words := by
      show p ∉ st.words.erase p
      intro hmem
      have h1 := List.count_erase_self p st.words
      have h2 := List.one_le_count_iff.mpr hmem
      omega
    have h1 := not_mem_words_applyOps h0 ops
    refine ⟨h1, fun c hne hdp => ?_⟩
    have hm := draw_mem (c := c) hne
    rw [hdp] at hm
    exact h1 hm
  · intro hc
    show p ∈ st.words.erase p
    rw [← List.one_le_count_iff, List.count_erase_self]
    omega

/-- Claim C2 as stated is false when the pool holds duplicate copies: with
two copies of `(a, b)` loaded, consuming the pair leaves one copy, and
the very next draw returns the consumed pair. -/
theorem claim_C2_counterexample :
    (mark_word_used (['a'], ['b']) stateC2).words ≠ [] ∧
    draw 0 (mark_word_used (['a'], ['b']) stateC2) = (['a'], ['b']) := by
  decide

theorem claim_C2_witness :
    (['a'], ['b']) ∉ (applyOps (mark_word_used (['a'], ['b']) stateC2w) []).words :=
  ((claim_C2 (['a'], ['b']) stateC2w []).1 (by decide)).1

/-! ### Claim C3 -/

/-- Claim C3 (amended): for every loaded pool whose accepted stored lines
are all canonical (their trimmed form equals the parsed pair's canonical
line) and whose in-memory pool matches the store, any sequence of
consumes of pairs taken from the current pool preserves the multiset of
pairs across the active and used stores: nothing is lost and nothing is
duplicated.  (A loader-accepted but non-canonical line — e.g. `a , b` —
breaks this: its consume rewrites nothing in the active store yet still
appends to the used store, duplicating the pair across the two stores.) -/
theorem claim_C3 (ps : List WordPair) (st : AppState)
    (hcs : canonicalStore st.activeLines = true)
    (hperm : st.words.Perm (pairsOf st.activeLines))
    (hval : validSeq ps st = true) :
    (pairsOf (applyConsumes ps st).activeLines ++
      pairsOf (applyConsumes ps st).usedLines).Perm
      (pairsOf st.activeLines ++ pairsOf st.usedLines) := by
  revert st
  induction ps with
  | nil =>
    intro st hcs hperm hval
    exact List.Perm.refl _
  | cons q qs ih =>
    intro st hcs hperm hval
    rw [validSeq, Bool.and_eq_true] at hval
    obtain ⟨hq, hrest⟩ := hval
    have hmem : q ∈ st.words := by
      simpa using hq
    obtain ⟨hcs2, hperm2, hstep⟩ := mark_word_used_perm hcs hperm hmem
    exact (ih (mark_word_used q st) hcs2 hperm2 hrest).trans hstep

/-- Claim C3 as stated is false for a loader-accepted, non-canonical
stored line `a , b`: consuming its pair leaves the active store intact
but appends `a,b` to the used store, so the pair ends up represented in
both stores at once. -/
theorem claim_C3_counterexample :
    validSeq [(['a'], ['b'])] stateC3 = true ∧
    ¬ (pairsOf (applyConsumes [(['a'], ['b'])] stateC3).activeLines ++
        pairsOf (applyConsumes [(['a'], ['b'])] stateC3).usedLines).Perm
        (pairsOf stateC3.activeLines ++ pairsOf stateC3.usedLines) := by
  constructor
  · decide
  · intro hperm
    have hlen := hperm.length_eq
    rw [show (pairsOf (applyConsumes [(['a'], ['b'])] stateC3).activeLines ++
        pairsOf (applyConsumes [(['a'], ['b'])] stateC3).usedLines).length = 2
        from rfl,
      show (pairsOf stateC3.activeLines ++ pairsOf stateC3.usedLines).length = 1
        from rfl] at hlen
    exact absurd hlen (by decide)

theorem claim_C3_witness :
    (pairsOf (applyConsumes [(['x'], ['y'])] stateC3w).activeLines ++
      pairsOf (applyConsumes [(['x'], ['y'])] stateC3w).usedLines).Perm
      (pairsOf stateC3w.activeLines ++ pairsOf stateC3w.usedLines) :=
  claim_C3 [(['x'], ['y'])] stateC3w (by decide) (by decide) (by decide)

/-! ### Claim C4 -/

/-- Claim C4 (amended): consume matches stored lines by their trimmed
content, not byte for byte.  For every stored line that load accepts as a
pair and whose trimmed form has no whitespace and exactly one separator,
the pair's canonical representation equals the trimmed line, and
consuming the loaded pair removes that line from the store.  (A line such
as `a , b` is accepted by load but its canonical form `a,b` differs from
the stored bytes and from the trimmed line, and consume fails to locate
it.) -/
theorem claim_C4 (raw : Str) (p : WordPair) (rest : List Str)
    (hp : parseLine raw = some p)
    (hws : ∀ ch ∈ strip raw, isWs ch = false)
    (hc : (strip raw).count ',' = 1) :
    canonical p = strip raw ∧
    removeFirstLine (canonical p) (raw :: rest) = rest := by
  obtain ⟨u, v, huv, hu, hv⟩ := count_comma_one hc
  have hsu : strip u = u :=
    strip_of_no_ws fun ch hch => hws ch (huv ▸ List.mem_append.mpr (Or.inl hch))
  have hsv : strip v = v :=
    strip_of_no_ws fun ch hch =>
      hws ch (huv ▸ List.mem_append.mpr
        (Or.inr (List.mem_cons.mpr (Or.inr hch))))
  have hmain : canonical p = strip raw := by
    rw [parseLine, huv] at hp
    unfold parseStripped at hp
    rw [splitComma_append_comma v hu, splitComma_no_comma hv] at hp
    rw [List.map_cons, List.map_cons, List.map_nil, hsu, hsv] at hp
    split at hp
    · exact Option.noConfusion hp
    · split at hp
      · exact Option.noConfusion hp
      · split at hp
        next a b heq =>
          injection hp with hp
          have heq2 : [u, v].filter (fun s => !s.isEmpty) = [u, v] :=
            List.Sublist.eq_of_length (List.filter_sublist _)
              (by rw [heq]; rfl)
          rw [heq2] at heq
          injection heq with h1 heq
          injection heq with h2 heq
          rw [huv, ← hp, ← h1, ← h2]
          rfl
        next => exact Option.noConfusion hp
  refine ⟨hmain, ?_⟩
  unfold removeFirstLine
  rw [if_pos hmain.symm]

/-- Claim C4 as stated is false: the stored line `a , b` is accepted by
load as the pair `(a, b)`, but the pair's canonical representation `a,b`
does not match the stored line byte for byte, and consuming the pair
fails to remove the line. -/
theorem claim_C4_counterexample :
    parseLine ['a', ' ', ',', ' ', 'b'] = some (['a'], ['b']) ∧
    canonical (['a'], ['b']) ≠ ['a', ' ', ',', ' ', 'b'] ∧
    removeFirstLine (canonical (['a'], ['b'])) [['a', ' ', ',', ' ', 'b']] =
      [['a', ' ', ',', ' ', 'b']] := by
  decide

theorem claim_C4_witness :
    canonical (['x'], ['y']) = strip ['x', ',', 'y'] ∧
    removeFirstLine (canonical (['x'], ['y'])) [['x', ',', 'y']] = [] :=
  claim_C4 ['x', ',', 'y'] (['x'], ['y']) [] (by decide) (by decide) (by decide)

/-! ### Claim C5 -/

/-- Claim C5: for a round with player count N ≥ 2, iterating `proceed`
from the initial sequencer state `(0, intro)` reaches the reveal state
after exactly 2N calls: no shorter iteration reaches it, and the 2N-th
does. -/
theorem claim_C5 (n : Nat) (h : 2 ≤ n) :
    isReveal n (proceed^[2 * n] (0, Phase.intro)) ∧
    ∀ k, k < 2 * n → ¬ isReveal n (proceed^[k] (0, Phase.intro)) := by
  constructor
  · rw [proceed_iterate]
    show n ≤ 2 * n / 2
    omega
  · intro k hk
    rw [proceed_iterate]
    show ¬ n ≤ k / 2
    omega

theorem claim_C5_witness :
    isReveal 3 (proceed^[6] (0, Phase.intro)) :=
  (claim_C5 3 (by decide)).1

/-! ### Claim C6 -/

/-- Claim C6: `proceed` maps `(i, intro)` to `(i, word)` and `(i, word)`
to `(i + 1, intro)`, which is non-terminal when i + 1 < N and is the
terminal reveal state otherwise; along the run from the initial state,
player i < N is at its intro screen exactly at step 2i and at its word
screen exactly at step 2i + 1, so no player is skipped or revisited and
each passes through one intro and one word phase, in index order. -/
theorem claim_C6 (n : Nat) (h : 2 ≤ n) :
    (∀ i, proceed (i, Phase.intro) = (i, Phase.word)) ∧
    (∀ i, proceed (i, Phase.word) = (i + 1, Phase.intro)) ∧
    (∀ i, i + 1 < n → ¬ isReveal n (proceed (i, Phase.word))) ∧
    (∀ i, n ≤ i + 1 → isReveal n (proceed (i, Phase.word))) ∧
    (∀ i, i < n → ∀ k,
      (proceed^[k] (0, Phase.intro) = (i, Phase.intro) ↔ k = 2 * i) ∧
      (proceed^[k] (0, Phase.intro) = (i, Phase.word) ↔ k = 2 * i + 1)) := by
  refine ⟨fun i => rfl, fun i => rfl, ?_, ?_, ?_⟩
  · intro i hi
    show ¬ n ≤ i + 1
    omega
  · intro i hi
    exact hi
  · intro i hi k
    have key := proceed_iterate k
    constructor
    · constructor
      · intro hk
        rw [key, Prod.mk.injEq] at hk
        obtain ⟨h1, h2⟩ := hk
        have h3 : k % 2 = 0 := by
          by_contra hc
          rw [if_neg hc] at h2
          exact Phase.noConfusion h2
        omega
      · intro hk
        subst hk
        rw [key, Prod.mk.injEq]
        refine ⟨by omega, ?_⟩
        rw [if_pos (by omega)]
    · constructor
      · intro hk
        rw [key, Prod.mk.injEq] at hk
        obtain ⟨h1, h2⟩ := hk
        have h3 : ¬ k % 2 = 0 := by
          intro hc
          rw [if_pos hc] at h2
          exact Phase.noConfusion h2
        omega
      · intro hk
        subst hk
        rw [key, Prod.mk.injEq]
        refine ⟨by omega, ?_⟩
        rw [if_neg (by omega)]

theorem claim_C6_witness :
    proceed (0, Phase.intro) = (0, Phase.word) :=
  (claim_C6 2 (by decide)).1 0

/-! ### Claim C7 -/

/-- Claim C7: with a player count set and the in-memory pool empty,
`start_round` reports pool exhaustion and leaves the whole state — in
particular the prior round's player index, sub-phase, chosen pair,
undercover index and player words — unchanged. -/
theorem claim_C7 (c : Nat) (sw : Bool) (u : Nat) (st : AppState) (n : Nat)
    (hn : st.playerCount = some n) (hn0 : n ≠ 0) (hw : st.words = []) :
    start_round c sw u st = (StartOutcome.poolExhausted, st) := by
  have hwE : st.words.isEmpty = true := by
    rw [hw]
    rfl
  unfold start_round
  split
  next h =>
    rw [hn] at h
    exact Option.noConfusion h
  next m h =>
    rw [hn] at h
    injection h with h
    subst h
    rw [if_neg hn0, if_pos hwE]

theorem claim_C7_witness :
    start_round 0 false 0 stateC7w = (StartOutcome.poolExhausted, stateC7w) :=
  claim_C7 0 false 0 stateC7w 2 rfl (by decide) rfl

/-! ### Claim C8 -/

/-- Claim C8: `load_words` fails with `missingSource` exactly when the
backing store is absent, fails with `emptyPool` exactly when the store
exists but yields zero valid pairs, and in every other case returns the
valid pairs in file order. -/
theorem claim_C8 :
    (∀ src : Option (List Str),
      load_words src = .error .missingSource ↔ src = none) ∧
    (∀ lines : List Str,
      load_words (some lines) = .error .emptyPool ↔
        lines.filterMap parseLine = []) ∧
    (∀ lines : List Str, lines.filterMap parseLine ≠ [] →
      load_words (some lines) = .ok (lines.filterMap parseLine)) := by
  refine ⟨?_, ?_, ?_⟩
  · intro src
    cases src with
    | none => simp [load_words]
    | some lines =>
      simp only [load_words]
      by_cases h : (lines.filterMap parseLine).isEmpty <;> simp [h]
  · intro lines
    simp only [load_words]
    by_cases h : (lines.filterMap parseLine).isEmpty
    · rw [List.isEmpty_iff] at h
      simp [h]
    · have h2 : lines.filterMap parseLine ≠ [] := by
        intro hq
        exact h (by rw [hq]; rfl)
      simp [h, h2]
  · intro lines h
    have hE : (lines.filterMap parseLine).isEmpty = false := by
      cases hq : lines.filterMap parseLine with
      | nil => exact absurd hq h
      | cons a t => rfl
    simp [load_words, hE]

theorem claim_C8_witness :
    load_words none = .error .missingSource :=
  (claim_C8.1 none).mpr rfl

/-! ### Claim C9 -/

/-- Claim C9: consuming a pair whose canonical line matches no stored line
leaves the active backing store unmodified, while the in-memory pool still
has one matching occurrence removed when one exists and is untouched
otherwise. -/
theorem claim_C9 (p : WordPair) (st : AppState)
    (h : ∀ raw ∈ st.activeLines, strip raw ≠ canonical p) :
    (mark_word_used p st).activeLines = st.activeLines ∧
    (mark_word_used p st).words = st.words.erase p ∧
    (p ∈ st.words →
      ((mark_word_used p st).words).length + 1 = st.words.length) ∧
    (p ∉ st.words → (mark_word_used p st).words = st.words) := by
  refine ⟨removeFirstLine_no_match h, rfl, ?_, ?_⟩
  · intro hmem
    show (st.words.erase p).length + 1 = st.words.length
    rw [List.length_erase_of_mem hmem]
    have := List.length_pos.mpr (List.ne_nil_of_mem hmem)
    omega
  · intro hmem
    show st.words.erase p = st.words
    exact List.erase_of_not_mem hmem

theorem claim_C9_witness :
    (mark_word_used (['a'], ['b']) stateC9w).activeLines =
      stateC9w.activeLines ∧
    ((mark_word_used (['a'], ['b']) stateC9w).words).length + 1 =
      stateC9w.words.length :=
  ⟨(claim_C9 (['a'], ['b']) stateC9w (by decide)).1,
   (claim_C9 (['a'], ['b']) stateC9w (by decide)).2.2.1 (by decide)⟩

/-! ### Claim C10 -/

/-- Claim C10: every consume appends exactly one canonical line for the
given pair to the used backing store, unconditionally — in particular
whether or not any stored line or pool entry matches the pair. -/
theorem claim_C10 (p : WordPair) (st : AppState) :
    (mark_word_used p st).usedLines = st.usedLines ++ [canonical p] ∧
    ((mark_word_used p st).usedLines).length = st.usedLines.length + 1 := by
  refine ⟨rfl, ?_⟩
  show (st.usedLines ++ [canonical p]).length = st.usedLines.length + 1
  simp

end Werewolf
